import Mathlib

/-!
# Verification of the Compress-photo client-side compression pipeline

Shallow embedding of `src/App.tsx` (and the `FileUploader` component it uses).
The browser-side primitives that the code drives (image decode, canvas JPEG
re-encode, object-URL allocation) are modelled abstractly:

* the encoder is an oracle `Encoder : JsFile → ℚ → CompressOutcome` giving, for
  each file and quality, either an encoded blob with its byte size or the
  error message with which `compressFile` rejects;
* `URL.createObjectURL` hands out fresh natural-number handles from a counter
  threaded through the state; `URL.revokeObjectURL` appends the handle to a
  ghost `revoked` list (a multiset, so a double revocation is observable).

JavaScript `Map` objects keyed by file name are modelled as association lists
with JS `Map.set` semantics (in-place update of an existing key, append
otherwise).  Quality values are rationals.
-/

namespace CompressPhoto

/-- A member of the `File[]` array handed to `handleFileSelect`.  `content` is
an abstract identifier for the file's bytes (which decide whether the browser
pipeline succeeds on it); `type` is the declared MIME type string. -/
structure JsFile where
  name : String
  type : String
  size : Nat
  content : Nat
  deriving DecidableEq, Repr

/-- The `CompressedResult` interface of `App.tsx`: blob, its size, object URL. -/
structure CompressedResult where
  blobContent : Nat
  size : Nat
  url : Nat
  deriving DecidableEq, Repr

/-! ## JavaScript `Map` as an association list -/

/-- `m.set(k, v)` of a JS `Map`: update in place if the key is present,
append otherwise. -/
def mapSet {α : Type} (m : List (String × α)) (k : String) (v : α) :
    List (String × α) :=
  if m.any (fun p => decide (p.1 = k)) then
    m.map (fun p => if p.1 = k then (k, v) else p)
  else m ++ [(k, v)]

/-- `m.get(k)` of a JS `Map`, as an `Option`. -/
def mapGet {α : Type} (m : List (String × α)) (k : String) : Option α :=
  (m.find? (fun p => decide (p.1 = k))).map (·.2)

/-! ## `getCompressedFileName`

JS strings are sequences of characters; `originalName.split('.')` is embedded
as `splitOnDot` on the character list, `nameParts.pop()` as `dropLast`, and
`nameParts.join('.')` as `joinDot`. -/

/-- `s.split('.')` of JavaScript, on the character list of the string. -/
def splitOnDot : List Char → List (List Char)
  | [] => [[]]
  | c :: cs =>
    match splitOnDot cs with
    | r :: rs => if c = '.' then [] :: r :: rs else (c :: r) :: rs
    | [] => [[]]

/-- `parts.join('.')` of JavaScript. -/
def joinDot : List (List Char) → List Char
  | [] => []
  | [s] => s
  | s :: rest => s ++ '.' :: joinDot rest

/-- Lines 48-52 of `App.tsx`:
`const nameParts = originalName.split('.'); nameParts.pop();
 return nameParts.join('.') + '_KolerskyAI_compressed.jpg';` -/
def getCompressedFileName (originalName : String) : String :=
  String.mk (joinDot (splitOnDot originalName.toList).dropLast ++
    "_KolerskyAI_compressed.jpg".toList)

/-! ## The compression pipeline -/

/-- What the browser pipeline (FileReader → Image → canvas → `toBlob`) does
for one file at one quality: either an encoded blob with its byte size, or
the message of the `Error` with which `compressFile` rejects (one of the
read/decode/context/encode failure messages of lines 61-93 of `App.tsx`). -/
inductive CompressOutcome where
  | ok (blobContent : Nat) (size : Nat)
  | fail (msg : String)
  deriving DecidableEq, Repr

/-- The environment oracle: the behaviour of the browser's decode/encode
primitives on each file at each quality. -/
def Encoder : Type := JsFile → ℚ → CompressOutcome

/-- `compressFile(file, qualityValue)` (lines 54-97): on success it calls
`URL.createObjectURL(blob)`, consuming a fresh handle from the counter; on
failure it rejects with an `Error` carrying a message.  Returns the settled
promise value and the new handle counter. -/
def compressFile (e : Encoder) (f : JsFile) (q : ℚ) (ctr : Nat) :
    Except String CompressedResult × Nat :=
  match e f q with
  | .ok b sz => (.ok ⟨b, sz, ctr⟩, ctr + 1)
  | .fail m => (.error m, ctr)

/-- `Promise.allSettled(originalFiles.map(file => compressFile(file, quality)))`
(lines 112-114): every task runs to completion; the settled outcomes are
collected in order, pairing each file with its outcome. -/
def runAll (e : Encoder) (q : ℚ) :
    Nat → List JsFile → List (JsFile × Except String CompressedResult) × Nat
  | ctr, [] => ([], ctr)
  | ctr, f :: fs =>
    let (r, c1) := compressFile e f q ctr
    let (rs, c2) := runAll e q c1 fs
    ((f, r) :: rs, c2)

/-- A rejected promise's `reason` as seen by the handler of lines 117-131:
either an `Error` object (`instanceof Error`), or anything else, kept as its
`String(reason)` conversion. -/
inductive RejectReason where
  | errObj (message : String)
  | nonError (stringValue : String)
  deriving DecidableEq, Repr

/-- Lines 125-129: `result.reason instanceof Error ? result.reason.message
: (String(result.reason) || 'Не удалось сжать.')`. -/
def resolveErrorMessage : RejectReason → String
  | .errObj m => m
  | .nonError s => if s = "" then "Не удалось сжать." else s

/-- The `results.forEach` loop of lines 117-131: fulfilled outcomes go into
`newCompressedResults`, rejected ones into `newErrors`, both keyed by file
name.  All rejections of `compressFile` are `Error` objects. -/
def settle : List (JsFile × Except String CompressedResult) →
    List (String × CompressedResult) × List (String × String) →
    List (String × CompressedResult) × List (String × String)
  | [], maps => maps
  | (f, .ok r) :: rest, (rm, em) => settle rest (mapSet rm f.name r, em)
  | (f, .error m) :: rest, (rm, em) =>
    settle rest (rm, mapSet em f.name (resolveErrorMessage (.errObj m)))

/-- The component state of `App` plus ghost instrumentation for object URLs:
`urlCounter` feeds `URL.createObjectURL`, `created` records every handle ever
created, and `revoked` records every `URL.revokeObjectURL` call (as a list,
so a double revocation would appear twice). -/
structure AppState where
  originalFiles : List JsFile
  quality : ℚ
  isProcessing : Bool
  compressedResults : List (String × CompressedResult)
  errors : List (String × String)
  urlCounter : Nat
  created : List Nat
  revoked : List Nat
  deriving DecidableEq, Repr

/-- The initial component state (lines 13-17). -/
def initialState : AppState :=
  { originalFiles := [], quality := 4/5, isProcessing := false,
    compressedResults := [], errors := [], urlCounter := 0,
    created := [], revoked := [] }

/-- The object URLs held by a results map (the values' `url` fields, as
iterated by `forEach(result => URL.revokeObjectURL(result.url))`). -/
def resultUrls (rm : List (String × CompressedResult)) : List Nat :=
  (rm.map (·.2)).map (·.url)

/-- The object URLs created by a list of settled outcomes. -/
def createdUrls : List (JsFile × Except String CompressedResult) → List Nat
  | [] => []
  | (_, .ok r) :: rest => r.url :: createdUrls rest
  | (_, .error _) :: rest => createdUrls rest

/-- `file.type.startsWith('image/')` (line 29). -/
def isImage (f : JsFile) : Bool :=
  "image/".toList.isPrefixOf f.type.toList

/-- The global validation error message of line 31. -/
def globalErrorMessage : String := "Пожалуйста, выберите файлы изображений."

/-- `handleFileSelect` (lines 28-37): filter to image files; if none survive
from a non-empty selection, set only the global error; otherwise clear all
errors, set the batch to the first 5 image files and empty the results map
(without revoking its URLs). -/
def handleFileSelect (files : List JsFile) (s : AppState) : AppState :=
  let imageFiles := files.filter isImage
  if imageFiles.isEmpty && !files.isEmpty then
    { s with errors := [("global", globalErrorMessage)] }
  else
    { s with errors := [], originalFiles := imageFiles.take 5,
             compressedResults := [] }

/-- One settled run of the `processFiles` effect body (lines 102-136):
revoke the URLs of the current results map, run all compression tasks,
and install the freshly built outcome maps. -/
def processFiles (e : Encoder) (s : AppState) : AppState :=
  let res := runAll e s.quality s.urlCounter s.originalFiles
  let maps := settle res.1 ([], [])
  { s with compressedResults := maps.1, errors := maps.2, isProcessing := false,
           urlCounter := res.2, created := s.created ++ createdUrls res.1,
           revoked := s.revoked ++ resultUrls s.compressedResults }

/-- `handleReset` (lines 39-46): revoke the URLs of the displayed results,
then clear the batch, the results, the errors, and restore the default
quality.  The re-triggered effect returns early on the empty batch. -/
def handleReset (s : AppState) : AppState :=
  { s with originalFiles := [], compressedResults := [], errors := [],
           quality := 4/5,
           revoked := s.revoked ++ resultUrls s.compressedResults }

/-- A user interaction, taken together with the settled effect it triggers. -/
inductive Event where
  | select (files : List JsFile)
  | setQuality (q : ℚ)
  | reset

/-- One user interaction followed by the settled `useEffect` run it triggers
(the effect re-runs exactly when `originalFiles` or `quality` changed, and
returns early when the batch is empty, lines 99-142). -/
def step (e : Encoder) (s : AppState) : Event → AppState
  | .select files =>
    let imageFiles := files.filter isImage
    if imageFiles.isEmpty && !files.isEmpty then
      handleFileSelect files s
    else
      let s1 := handleFileSelect files s
      if s1.originalFiles.isEmpty then s1 else processFiles e s1
  | .setQuality q =>
    let s1 := { s with quality := q }
    if s1.originalFiles.isEmpty then s1 else processFiles e s1
  | .reset => handleReset s

/-- A whole interaction history. -/
def run (e : Encoder) (s : AppState) (evs : List Event) : AppState :=
  evs.foldl (step e) s

/-! ## Concrete fixtures used by witnesses and counterexamples -/

/-- A PNG image file. -/
def fileA : JsFile := ⟨"a.png", "image/png", 100, 0⟩

/-- A second PNG image file with a different name. -/
def fileB : JsFile := ⟨"b.png", "image/png", 200, 1⟩

/-- A file with the same name as `fileA` but different bytes. -/
def fileDupA : JsFile := ⟨"a.png", "image/png", 200, 1⟩

/-- A non-image file. -/
def fileText : JsFile := ⟨"notes.txt", "text/plain", 50, 2⟩

/-- An environment in which every file encodes successfully. -/
def okEncoder : Encoder := fun f _ => .ok f.content 10

/-- An environment in which the file with content id 0 encodes successfully
and every other file fails to produce a blob. -/
def mixedEncoder : Encoder :=
  fun f _ => if f.content = 0 then .ok 7 10 else .fail "Не удалось создать blob."

/-- The slider of lines 168-178 (`min="0.1" max="1" step="0.05"`): the value
`k` steps above the minimum. -/
def sliderQuality (k : Nat) : ℚ := 1/10 + k * (1/20)

/-- The slider's `min` attribute (line 171). -/
def sliderMin : ℚ := 1/10

/-- The slider's `max` attribute (line 172). -/
def sliderMax : ℚ := 1

/-- The slider's `step` attribute (line 173). -/
def sliderStep : ℚ := 1/20

/-- A settled outcome without its object URL (the only component of a run
that depends on the URL counter rather than on file and quality). -/
def eraseUrl : Except String CompressedResult → Except String (Nat × Nat)
  | .ok r => .ok (r.blobContent, r.size)
  | .error m => .error m

/-- A results map reduced to the byte sizes of its entries. -/
def projSize (rm : List (String × CompressedResult)) : List (String × Nat) :=
  rm.map (fun p => (p.1, p.2.size))

/-- The user-visible part of the component state: the five `useState` cells
of lines 13-17 (the ghost URL instrumentation is not one of them). -/
def visible (s : AppState) :
    List JsFile × ℚ × Bool × List (String × CompressedResult) × List (String × String) :=
  (s.originalFiles, s.quality, s.isProcessing, s.compressedResults, s.errors)

/-! ## Lemmas about the JS `Map` embedding -/

theorem find_map_replace {α : Type} (k : String) (v : α) :
    ∀ (m : List (String × α)), m.any (fun p => decide (p.1 = k)) = true →
      (m.map (fun p => if p.1 = k then (k, v) else p)).find?
        (fun p => decide (p.1 = k)) = some (k, v)
  | [], h => by simp at h
  | p :: m, h => by
    by_cases hk : p.1 = k
    · simp [List.find?, hk]
    · simp only [List.any_cons, decide_eq_true_eq, hk, false_or] at h
      simp only [List.map_cons, if_neg hk, List.find?, hk, decide_False, if_false]
      exact find_map_replace k v m h

theorem find_map_replace_ne {α : Type} (k k' : String) (v : α) (hne : k' ≠ k) :
    ∀ (m : List (String × α)),
      (m.map (fun p => if p.1 = k then (k, v) else p)).find?
        (fun p => decide (p.1 = k')) = m.find? (fun p => decide (p.1 = k'))
  | [] => rfl
  | p :: m => by
    by_cases hk : p.1 = k
    · have hpk' : ¬ p.1 = k' := fun h => hne (h ▸ hk ▸ rfl)
      simp only [List.map_cons, if_pos hk, List.find?, Ne.symm hne, hpk', decide_False]
      exact find_map_replace_ne k k' v hne m
    · simp only [List.map_cons, if_neg hk, List.find?]
      by_cases hk' : p.1 = k'
      · simp [hk']
      · simp only [hk', decide_False]
        exact find_map_replace_ne k k' v hne m

/-- Looking up the key just set returns the new value. -/
theorem mapGet_mapSet_self {α : Type} (m : List (String × α)) (k : String) (v : α) :
    mapGet (mapSet m k v) k = some v := by
  unfold mapSet mapGet
  by_cases h : m.any (fun p => decide (p.1 = k)) = true
  · rw [if_pos h, find_map_replace k v m h]; rfl
  · rw [if_neg h]
    have hnone : m.find? (fun p => decide (p.1 = k)) = none := by
      rw [List.find?_eq_none]
      intro p hp
      simp only [decide_eq_true_eq]
      intro hk
      exact h (List.any_eq_true.mpr ⟨p, hp, by simp [hk]⟩)
    rw [List.find?_append, hnone]
    simp [List.find?]

/-- Setting one key does not change the lookup of a different key. -/
theorem mapGet_mapSet_ne {α : Type} (m : List (String × α)) (k k' : String) (v : α)
    (hne : k' ≠ k) : mapGet (mapSet m k v) k' = mapGet m k' := by
  unfold mapSet mapGet
  by_cases h : m.any (fun p => decide (p.1 = k)) = true
  · rw [if_pos h, find_map_replace_ne k k' v hne m]
  · rw [if_neg h, List.find?_append]
    cases hf : m.find? (fun p => decide (p.1 = k')) with
    | some p => rfl
    | none => simp [List.find?, Ne.symm hne]

/-- Every value of `mapSet m k v` is either `v` or a value of `m`. -/
theorem mem_values_mapSet {α : Type} (m : List (String × α)) (k : String) (v w : α)
    (hw : w ∈ (mapSet m k v).map (·.2)) : w = v ∨ w ∈ m.map (·.2) := by
  unfold mapSet at hw
  by_cases h : m.any (fun p => decide (p.1 = k)) = true
  · rw [if_pos h, List.map_map] at hw
    rcases List.mem_map.mp hw with ⟨p, hp, hpe⟩
    by_cases hk : p.1 = k
    · left; simpa [hk] using hpe.symm
    · right; rw [List.mem_map]; exact ⟨p, hp, by simpa [hk] using hpe⟩
  · rw [if_neg h, List.map_append, List.mem_append] at hw
    rcases hw with hw | hw
    · right; exact hw
    · left; simpa using hw

/-! ## Lemmas about the file-name split -/

theorem splitOnDot_ne_nil : ∀ l : List Char, splitOnDot l ≠ []
  | [] => by simp [splitOnDot]
  | c :: cs => by
    unfold splitOnDot
    cases h : splitOnDot cs with
    | nil => simp
    | cons r rs => by_cases hc : c = '.' <;> simp [hc]

/-- A string without dots splits into the single segment that is the whole
string. -/
theorem splitOnDot_no_dot : ∀ l : List Char, '.' ∉ l → splitOnDot l = [l]
  | [], _ => rfl
  | c :: cs, h => by
    have hc : ¬ c = '.' := fun hc => h (hc ▸ List.mem_cons_self c cs)
    have ih := splitOnDot_no_dot cs (fun hm => h (List.mem_cons_of_mem c hm))
    unfold splitOnDot
    rw [ih]
    simp [hc]

theorem splitOnDot_cons_dot (cs : List Char) :
    splitOnDot ('.' :: cs) = [] :: splitOnDot cs := by
  cases h : splitOnDot cs with
  | nil => exact absurd h (splitOnDot_ne_nil cs)
  | cons r rs =>
    unfold splitOnDot
    rw [h]
    simp

theorem splitOnDot_cons_ne (c : Char) (hc : c ≠ '.') (cs : List Char)
    (r : List Char) (rs : List (List Char)) (h : splitOnDot cs = r :: rs) :
    splitOnDot (c :: cs) = (c :: r) :: rs := by
  unfold splitOnDot
  rw [h]
  simp [hc]

/-- Splitting distributes over a dot separator. -/
theorem splitOnDot_append (xs ys : List Char) :
    splitOnDot (xs ++ '.' :: ys) = splitOnDot xs ++ splitOnDot ys := by
  induction xs with
  | nil =>
    simp only [List.nil_append, splitOnDot_cons_dot]
    rfl
  | cons c cs ih =>
    cases h : splitOnDot cs with
    | nil => exact absurd h (splitOnDot_ne_nil cs)
    | cons r rs =>
      by_cases hc : c = '.'
      · subst hc
        simp only [List.cons_append, splitOnDot_cons_dot, ih, h]
      · have h2 : splitOnDot (cs ++ '.' :: ys) = r :: (rs ++ splitOnDot ys) := by
          rw [ih, h]; rfl
        rw [List.cons_append, splitOnDot_cons_ne c hc _ _ _ h2,
          splitOnDot_cons_ne c hc _ _ _ h]
        rfl

/-- Joining the split of a string restores the string. -/
theorem joinDot_splitOnDot : ∀ l : List Char, joinDot (splitOnDot l) = l
  | [] => rfl
  | c :: cs => by
    have ih := joinDot_splitOnDot cs
    cases h : splitOnDot cs with
    | nil => exact absurd h (splitOnDot_ne_nil cs)
    | cons r rs =>
      rw [h] at ih
      by_cases hc : c = '.'
      · subst hc
        rw [splitOnDot_cons_dot, h]
        show ('.' : Char) :: joinDot (r :: rs) = '.' :: cs
        rw [ih]
      · rw [splitOnDot_cons_ne c hc cs r rs h]
        cases rs with
        | nil => simp only [joinDot] at ih ⊢; rw [ih]
        | cons r' rs' =>
          show (c :: r) ++ '.' :: joinDot (r' :: rs') = c :: cs
          have hcs : r ++ '.' :: joinDot (r' :: rs') = cs := ih
          simp [← hcs]

/-! ## Lemmas about `runAll` and `settle` -/

/-- `Promise.allSettled` pairs every file of the batch, in order, with its
outcome: the first components of `runAll` are exactly the input files. -/
theorem runAll_map_fst (e : Encoder) (q : ℚ) :
    ∀ (ctr : Nat) (fs : List JsFile), ((runAll e q ctr fs).1).map (·.1) = fs
  | _, [] => rfl
  | ctr, f :: fs => by
    cases h : e f q with
    | ok b sz =>
      simp only [runAll, compressFile, h]
      exact congrArg (f :: ·) (runAll_map_fst e q _ fs)
    | fail m =>
      simp only [runAll, compressFile, h]
      exact congrArg (f :: ·) (runAll_map_fst e q _ fs)

/-- The URL counter never decreases across a run. -/
theorem runAll_counter_le (e : Encoder) (q : ℚ) :
    ∀ (ctr : Nat) (fs : List JsFile), ctr ≤ (runAll e q ctr fs).2
  | _, [] => le_refl _
  | ctr, f :: fs => by
    cases h : e f q with
    | ok b sz =>
      simp only [runAll, compressFile, h]
      exact le_trans (Nat.le_succ ctr) (runAll_counter_le e q _ fs)
    | fail m =>
      simp only [runAll, compressFile, h]
      exact runAll_counter_le e q _ fs

/-- Every URL created by a run is at least the starting counter value. -/
theorem runAll_created_ge (e : Encoder) (q : ℚ) :
    ∀ (ctr : Nat) (fs : List JsFile) (u : Nat),
      u ∈ createdUrls (runAll e q ctr fs).1 → ctr ≤ u
  | _, [], _, hu => by simp [runAll, createdUrls] at hu
  | ctr, f :: fs, u, hu => by
    cases h : e f q with
    | ok b sz =>
      simp only [runAll, compressFile, h, createdUrls] at hu
      rcases List.mem_cons.mp hu with hu | hu
      · exact hu ▸ le_refl _
      · exact le_trans (Nat.le_succ ctr) (runAll_created_ge e q _ fs u hu)
    | fail m =>
      simp only [runAll, compressFile, h, createdUrls] at hu
      exact runAll_created_ge e q _ fs u hu

/-- A URL of `mapSet rm k v` is the new value's URL or a URL of `rm`. -/
theorem mem_resultUrls_mapSet (rm : List (String × CompressedResult)) (k : String)
    (v : CompressedResult) (u : Nat) (hu : u ∈ resultUrls (mapSet rm k v)) :
    u = v.url ∨ u ∈ resultUrls rm := by
  unfold resultUrls at hu ⊢
  rcases List.mem_map.mp hu with ⟨w, hw, hwu⟩
  rcases mem_values_mapSet rm k v w hw with h | h
  · left; rw [← hwu, h]
  · right; exact List.mem_map.mpr ⟨w, h, hwu⟩

/-- Every URL in the settled results map comes from the initial map or from
one of the settled outcomes. -/
theorem settle_urls :
    ∀ (outs : List (JsFile × Except String CompressedResult))
      (rm : List (String × CompressedResult)) (em : List (String × String))
      (u : Nat), u ∈ resultUrls (settle outs (rm, em)).1 →
      u ∈ resultUrls rm ∨ u ∈ createdUrls outs
  | [], rm, em, u, hu => Or.inl hu
  | (f, .ok r) :: rest, rm, em, u, hu => by
    rcases settle_urls rest (mapSet rm f.name r) em u hu with h | h
    · rcases mem_resultUrls_mapSet rm f.name r u h with h | h
      · right; simp [createdUrls, h]
      · left; exact h
    · right
      simp only [createdUrls]
      exact List.mem_cons_of_mem _ h
  | (f, .error m) :: rest, rm, em, u, hu => by
    rcases settle_urls rest rm (mapSet em f.name (resolveErrorMessage (.errObj m))) u hu with h | h
    · left; exact h
    · right; simpa [createdUrls] using h

/-- Settling outcomes whose file names avoid `k` does not change either map
at key `k`. -/
theorem settle_get_of_not_mem :
    ∀ (outs : List (JsFile × Except String CompressedResult))
      (rm : List (String × CompressedResult)) (em : List (String × String))
      (k : String), k ∉ outs.map (·.1.name) →
      mapGet (settle outs (rm, em)).1 k = mapGet rm k ∧
      mapGet (settle outs (rm, em)).2 k = mapGet em k
  | [], rm, em, k, _ => ⟨rfl, rfl⟩
  | (f, .ok r) :: rest, rm, em, k, hk => by
    have hne : k ≠ f.name := fun h => hk (by simp [h])
    have ih := settle_get_of_not_mem rest (mapSet rm f.name r) em k
      (fun h => hk (List.mem_cons_of_mem _ h))
    exact ⟨ih.1.trans (mapGet_mapSet_ne rm f.name k r hne), ih.2⟩
  | (f, .error m) :: rest, rm, em, k, hk => by
    have hne : k ≠ f.name := fun h => hk (by simp [h])
    have ih := settle_get_of_not_mem rest rm
      (mapSet em f.name (resolveErrorMessage (.errObj m))) k
      (fun h => hk (List.mem_cons_of_mem _ h))
    exact ⟨ih.1, ih.2.trans (mapGet_mapSet_ne em f.name k _ hne)⟩

/-! ## The object-URL leak invariant -/

/-- URL `u` has already been allocated but is referenced neither by the
`revoked` ghost log nor by the current results map.  Such a handle can never
be revoked again: revocations only ever target URLs of the current results
map, and freshly created URLs are distinct from `u`. -/
def urlUnreferenced (u : Nat) (s : AppState) : Prop :=
  u ∉ s.revoked ∧ u ∉ resultUrls s.compressedResults ∧ u < s.urlCounter

theorem urlUnreferenced_processFiles (e : Encoder) (s : AppState) (u : Nat)
    (h : urlUnreferenced u s) : urlUnreferenced u (processFiles e s) := by
  obtain ⟨hrev, hres, hctr⟩ := h
  refine ⟨?_, ?_, ?_⟩
  · intro hmem
    rcases List.mem_append.mp hmem with hm | hm
    · exact hrev hm
    · exact hres hm
  · intro hmem
    rcases settle_urls _ [] [] u hmem with hm | hm
    · simp [resultUrls] at hm
    · exact absurd (runAll_created_ge e s.quality s.urlCounter s.originalFiles u hm)
        (Nat.not_le_of_lt hctr)
  · exact Nat.lt_of_lt_of_le hctr
      (runAll_counter_le e s.quality s.urlCounter s.originalFiles)

theorem urlUnreferenced_step (e : Encoder) (s : AppState) (u : Nat) (ev : Event)
    (h : urlUnreferenced u s) : urlUnreferenced u (step e s ev) := by
  obtain ⟨hrev, hres, hctr⟩ := h
  cases ev with
  | select files =>
    simp only [step]
    by_cases hcond : ((files.filter isImage).isEmpty && !files.isEmpty) = true
    · rw [if_pos hcond]
      unfold handleFileSelect
      rw [if_pos hcond]
      exact ⟨hrev, hres, hctr⟩
    · rw [if_neg hcond]
      have h1 : urlUnreferenced u (handleFileSelect files s) := by
        unfold handleFileSelect
        rw [if_neg hcond]
        exact ⟨hrev, by simp [resultUrls], hctr⟩
      by_cases hemp : (handleFileSelect files s).originalFiles.isEmpty = true
      · rw [if_pos hemp]; exact h1
      · rw [if_neg hemp]
        exact urlUnreferenced_processFiles e _ u h1
  | setQuality q =>
    simp only [step]
    have h1 : urlUnreferenced u { s with quality := q } := ⟨hrev, hres, hctr⟩
    by_cases hemp : ({ s with quality := q } : AppState).originalFiles.isEmpty = true
    · rw [if_pos hemp]; exact h1
    · rw [if_neg hemp]
      exact urlUnreferenced_processFiles e _ u h1
  | reset =>
    simp only [step, handleReset]
    refine ⟨?_, by simp [resultUrls], hctr⟩
    intro hmem
    rcases List.mem_append.mp hmem with hm | hm
    · exact hrev hm
    · exact hres hm

theorem urlUnreferenced_run (e : Encoder) (u : Nat) :
    ∀ (evs : List Event) (s : AppState), urlUnreferenced u s →
      urlUnreferenced u (run e s evs)
  | [], _, h => h
  | ev :: evs, s, h =>
    urlUnreferenced_run e u evs (step e s ev) (urlUnreferenced_step e s u ev h)

/-- The `created` ghost log only ever grows. -/
theorem created_mono_step (e : Encoder) (s : AppState) (u : Nat) (ev : Event)
    (h : u ∈ s.created) : u ∈ (step e s ev).created := by
  cases ev with
  | select files =>
    simp only [step]
    by_cases hcond : ((files.filter isImage).isEmpty && !files.isEmpty) = true
    · rw [if_pos hcond]
      unfold handleFileSelect
      rw [if_pos hcond]
      exact h
    · rw [if_neg hcond]
      have h1 : u ∈ (handleFileSelect files s).created := by
        unfold handleFileSelect
        rw [if_neg hcond]
        exact h
      by_cases hemp : (handleFileSelect files s).originalFiles.isEmpty = true
      · rw [if_pos hemp]; exact h1
      · rw [if_neg hemp]
        simp only [processFiles]
        exact List.mem_append_left _ h1
  | setQuality q =>
    simp only [step]
    by_cases hemp : ({ s with quality := q } : AppState).originalFiles.isEmpty = true
    · rw [if_pos hemp]; exact h
    · rw [if_neg hemp]
      simp only [processFiles]
      exact List.mem_append_left _ h
  | reset => exact h

theorem created_mono_run (e : Encoder) (u : Nat) :
    ∀ (evs : List Event) (s : AppState), u ∈ s.created →
      u ∈ (run e s evs).created
  | [], _, h => h
  | ev :: evs, s, h =>
    created_mono_run e u evs (step e s ev) (created_mono_step e s u ev h)

/-! ## Claim theorems -/

/-- **C1** (code bug).  The claim — every object URL created for a Success
outcome is revoked exactly once, when superseded or on reset — fails on the
code: after the user selects a first batch (whose run succeeds, creating
URL 0) and then selects a second batch via `handleFileSelect`, URL 0 is never
revoked by any continuation of the interaction, because `handleFileSelect`
empties the results map without revoking and the superseding run only revokes
what is left in that map. -/
theorem select_select_leaks_success_url (e : Encoder) (tr : List Event) :
    0 ∈ (run e (run okEncoder initialState
        [.select [fileA], .select [fileB]]) tr).created ∧
    0 ∉ (run e (run okEncoder initialState
        [.select [fileA], .select [fileB]]) tr).revoked := by
  have hc : 0 ∈ (run okEncoder initialState
      [.select [fileA], .select [fileB]]).created := by decide
  have hu : urlUnreferenced 0 (run okEncoder initialState
      [.select [fileA], .select [fileB]]) := by
    unfold urlUnreferenced
    exact ⟨by decide, by decide, by decide⟩
  exact ⟨created_mono_run e 0 tr _ hc, (urlUnreferenced_run e 0 tr _ hu).1⟩

/-- **C2** (counterexample).  For the input `photo.png` the download name is
not `photo_compressed.jpg`: the code inserts `_KolerskyAI` before
`_compressed.jpg`. -/
theorem getCompressedFileName_photo_not_as_claimed :
    getCompressedFileName "photo.png" ≠ "photo_compressed.jpg" ∧
    getCompressedFileName "photo.png" = "photo_KolerskyAI_compressed.jpg" := by
  constructor <;> decide

/-- **C2** (amended).  The download name is the original name with the
segment after the last dot removed, followed by `_KolerskyAI_compressed.jpg`;
it always ends in `.jpg` whatever the original extension, and for
`photo.png` it is `photo_KolerskyAI_compressed.jpg`. -/
theorem getCompressedFileName_ends_jpg :
    (∀ name : String, ∃ p : List Char,
      (getCompressedFileName name).toList = p ++ ".jpg".toList) ∧
    getCompressedFileName "photo.png" = "photo_KolerskyAI_compressed.jpg" := by
  constructor
  · intro name
    refine ⟨joinDot (splitOnDot name.toList).dropLast ++
      "_KolerskyAI_compressed".toList, ?_⟩
    show joinDot (splitOnDot name.toList).dropLast ++
        "_KolerskyAI_compressed.jpg".toList = _
    rw [List.append_assoc]
    rfl
  · decide

/-- **C10** (confirmed).  When the original name has no dot,
`getCompressedFileName` discards the whole name and returns the bare suffix
(which ends in `_compressed.jpg`); when it has dots, only the segment after
the last dot is removed. -/
theorem getCompressedFileName_no_dot_and_last_segment :
    (∀ name : String, '.' ∉ name.toList →
      getCompressedFileName name = "_KolerskyAI_compressed.jpg") ∧
    (∀ base ext : List Char, '.' ∉ ext →
      getCompressedFileName (String.mk (base ++ '.' :: ext)) =
        String.mk (base ++ "_KolerskyAI_compressed.jpg".toList)) := by
  constructor
  · intro name h
    unfold getCompressedFileName
    rw [splitOnDot_no_dot name.toList h]
    rfl
  · intro base ext h
    unfold getCompressedFileName
    show String.mk (joinDot (splitOnDot (base ++ '.' :: ext)).dropLast ++ _) = _
    rw [splitOnDot_append base ext, splitOnDot_no_dot ext h,
      List.dropLast_concat, joinDot_splitOnDot]

/-- Witness for the C10 theorem: `photo` (no dot) and `my.photo.png`
(two dots). -/
theorem getCompressedFileName_no_dot_and_last_segment_witness :
    ('.' ∉ "photo".toList ∧
      getCompressedFileName "photo" = "_KolerskyAI_compressed.jpg") ∧
    ('.' ∉ "png".toList ∧
      getCompressedFileName (String.mk ("my.photo".toList ++ '.' :: "png".toList)) =
        String.mk ("my.photo".toList ++ "_KolerskyAI_compressed.jpg".toList)) :=
  ⟨⟨by decide, getCompressedFileName_no_dot_and_last_segment.1 "photo" (by decide)⟩,
   ⟨by decide, getCompressedFileName_no_dot_and_last_segment.2
      "my.photo".toList "png".toList (by decide)⟩⟩

/-- **C4** (confirmed).  A non-empty selection containing no image files
signals the global validation error and leaves both the batch and the
displayed results untouched. -/
theorem select_no_images_sets_global_error (e : Encoder) (s : AppState)
    (files : List JsFile) (hne : files ≠ []) (hni : files.filter isImage = []) :
    (step e s (.select files)).errors = [("global", globalErrorMessage)] ∧
    (step e s (.select files)).originalFiles = s.originalFiles ∧
    (step e s (.select files)).compressedResults = s.compressedResults := by
  have hcond : ((files.filter isImage).isEmpty && !files.isEmpty) = true := by
    cases files with
    | nil => exact absurd rfl hne
    | cons f fs => simp [hni]
  simp [step, handleFileSelect, hcond]

/-- Witness for C4: selecting a single text file. -/
theorem select_no_images_sets_global_error_witness :
    [fileText] ≠ [] ∧ [fileText].filter isImage = [] ∧
    (step okEncoder initialState (.select [fileText])).errors =
      [("global", globalErrorMessage)] ∧
    (step okEncoder initialState (.select [fileText])).originalFiles = [] ∧
    (step okEncoder initialState (.select [fileText])).compressedResults = [] :=
  ⟨by decide, by decide,
    select_no_images_sets_global_error okEncoder initialState [fileText]
      (by decide) (by decide)⟩

/-- **C5** (confirmed).  When the selection contains more than five image
files, `handleFileSelect` sets the batch to exactly the first five image
files in selection order and signals no error for the dropped tail. -/
theorem select_truncates_to_five (files : List JsFile) (s : AppState)
    (h : 5 < (files.filter isImage).length) :
    (handleFileSelect files s).originalFiles = (files.filter isImage).take 5 ∧
    (handleFileSelect files s).errors = [] := by
  have hcond : ¬ ((files.filter isImage).isEmpty && !files.isEmpty) = true := by
    intro hc
    rw [Bool.and_eq_true, List.isEmpty_eq_true] at hc
    rw [hc.1] at h
    simp at h
  simp [handleFileSelect, hcond]

/-- Witness for C5: six image files, batch becomes the first five. -/
theorem select_truncates_to_five_witness :
    5 < ([fileA, fileB, fileA, fileB, fileA, fileB].filter isImage).length ∧
    (handleFileSelect [fileA, fileB, fileA, fileB, fileA, fileB]
        initialState).originalFiles = [fileA, fileB, fileA, fileB, fileA] ∧
    (handleFileSelect [fileA, fileB, fileA, fileB, fileA, fileB]
        initialState).errors = [] :=
  ⟨by decide,
    by
      have h := select_truncates_to_five [fileA, fileB, fileA, fileB, fileA, fileB]
        initialState (by decide)
      exact ⟨h.1.trans (by decide), h.2⟩⟩

/-- **C8** (confirmed).  The quality parameter starts at 0.80; the slider's
values are `0.10 + k·0.05`, all lie in `[0.10, 1.00]` for the valid steps,
attain both endpoints, and consecutive values differ by 0.05. -/
theorem quality_default_and_range :
    initialState.quality = 8/10 ∧
    sliderQuality 0 = sliderMin ∧
    sliderQuality 18 = sliderMax ∧
    (∀ k : Nat, k ≤ 18 → sliderMin ≤ sliderQuality k ∧ sliderQuality k ≤ sliderMax) ∧
    (∀ k : Nat, sliderQuality (k + 1) - sliderQuality k = sliderStep) := by
  refine ⟨by norm_num [initialState], by norm_num [sliderQuality, sliderMin],
    by norm_num [sliderQuality, sliderMax], ?_, ?_⟩
  · intro k hk
    have hk' : (k : ℚ) ≤ 18 := by exact_mod_cast hk
    constructor
    · unfold sliderQuality sliderMin
      have : (0 : ℚ) ≤ k * (1/20) := by positivity
      linarith
    · unfold sliderQuality sliderMax
      linarith
  · intro k
    unfold sliderQuality sliderStep
    push_cast
    ring

/-- Witness for C8: the valid step `k = 4` (value 0.30) lies in the range. -/
theorem quality_default_and_range_witness :
    (4 : Nat) ≤ 18 ∧ sliderMin ≤ sliderQuality 4 ∧ sliderQuality 4 ≤ sliderMax :=
  ⟨by norm_num, quality_default_and_range.2.2.2.1 4 (by norm_num)⟩

/-- **C9** (confirmed).  From any settled state, `handleReset` revokes
exactly the URLs of the displayed results and returns the component to its
initial visible state: empty batch, default quality 0.8, no results, no
errors. -/
theorem reset_restores_initial_state (e : Encoder) (s : AppState)
    (h : s.isProcessing = false) :
    visible (step e s .reset) = visible initialState ∧
    (step e s .reset).revoked = s.revoked ++ resultUrls s.compressedResults := by
  constructor
  · simp [step, handleReset, visible, initialState, h]
  · simp [step, handleReset]

/-- Witness for C9: reset after a settled successful run. -/
theorem reset_restores_initial_state_witness :
    (step okEncoder initialState (.select [fileA])).isProcessing = false ∧
    visible (step okEncoder (step okEncoder initialState (.select [fileA])) .reset) =
      visible initialState :=
  ⟨by decide,
    (reset_restores_initial_state okEncoder
      (step okEncoder initialState (.select [fileA])) (by decide)).1⟩

/-! ## Exactly-one-outcome lemmas (C3, C6) -/

/-- With pairwise-distinct file names, every settled file ends with its name
in exactly one of the two maps, provided it starts in neither. -/
theorem settle_exactly_one :
    ∀ (outs : List (JsFile × Except String CompressedResult))
      (rm : List (String × CompressedResult)) (em : List (String × String))
      (f : JsFile) (o : Except String CompressedResult),
      (outs.map (·.1.name)).Nodup → (f, o) ∈ outs →
      mapGet rm f.name = none → mapGet em f.name = none →
      (mapGet (settle outs (rm, em)).1 f.name).isSome =
        !(mapGet (settle outs (rm, em)).2 f.name).isSome
  | [], _, _, _, _, _, hmem, _, _ => absurd hmem (List.not_mem_nil _)
  | (g, og) :: rest, rm, em, f, o, hnd, hmem, hrm, hem => by
    have hnd' : (rest.map (·.1.name)).Nodup := (List.nodup_cons.mp hnd).2
    have hgrest : g.name ∉ rest.map (·.1.name) := (List.nodup_cons.mp hnd).1
    rcases List.mem_cons.mp hmem with hhead | htail
    · have hgf : g = f := (congrArg Prod.fst hhead).symm
      subst hgf
      cases og with
      | ok r =>
        have hnot : g.name ∉ rest.map (·.1.name) := hgrest
        have hpres := settle_get_of_not_mem rest (mapSet rm g.name r) em g.name hnot
        rw [show settle ((g, Except.ok r) :: rest) (rm, em) =
            settle rest (mapSet rm g.name r, em) from rfl,
          hpres.1, hpres.2, mapGet_mapSet_self, hem]
        rfl
      | error m =>
        have hpres := settle_get_of_not_mem rest rm
          (mapSet em g.name (resolveErrorMessage (.errObj m))) g.name hgrest
        rw [show settle ((g, Except.error m) :: rest) (rm, em) =
            settle rest (rm, mapSet em g.name (resolveErrorMessage (.errObj m)))
            from rfl,
          hpres.1, hpres.2, mapGet_mapSet_self, hrm]
        rfl
    · have hfname : f.name ∈ rest.map (·.1.name) :=
        List.mem_map.mpr ⟨(f, o), htail, rfl⟩
      have hne : f.name ≠ g.name := fun h => hgrest (h ▸ hfname)
      cases og with
      | ok r =>
        have hrm' : mapGet (mapSet rm g.name r) f.name = none :=
          (mapGet_mapSet_ne rm g.name f.name r hne).trans hrm
        exact settle_exactly_one rest (mapSet rm g.name r) em f o hnd' htail hrm' hem
      | error m =>
        have hem' : mapGet (mapSet em g.name (resolveErrorMessage (.errObj m)))
            f.name = none :=
          (mapGet_mapSet_ne em g.name f.name _ hne).trans hem
        exact settle_exactly_one rest rm _ f o hnd' htail hrm hem'

/-- A file whose compression task rejects ends with exactly its error message
recorded under its name, provided file names are pairwise distinct. -/
theorem settle_get_error :
    ∀ (outs : List (JsFile × Except String CompressedResult))
      (rm : List (String × CompressedResult)) (em : List (String × String))
      (f : JsFile) (m : String),
      (outs.map (·.1.name)).Nodup → (f, .error m) ∈ outs →
      mapGet (settle outs (rm, em)).2 f.name =
        some (resolveErrorMessage (.errObj m))
  | [], _, _, _, _, _, hmem => absurd hmem (List.not_mem_nil _)
  | (g, og) :: rest, rm, em, f, m, hnd, hmem => by
    have hnd' : (rest.map (·.1.name)).Nodup := (List.nodup_cons.mp hnd).2
    have hgrest : g.name ∉ rest.map (·.1.name) := (List.nodup_cons.mp hnd).1
    rcases List.mem_cons.mp hmem with hhead | htail
    · have hgf : g = f := (congrArg Prod.fst hhead).symm
      have hog : og = .error m := (congrArg Prod.snd hhead).symm
      subst hgf hog
      have hpres := settle_get_of_not_mem rest rm
        (mapSet em g.name (resolveErrorMessage (.errObj m))) g.name hgrest
      rw [show settle ((g, Except.error m) :: rest) (rm, em) =
          settle rest (rm, mapSet em g.name (resolveErrorMessage (.errObj m)))
          from rfl,
        hpres.2, mapGet_mapSet_self]
    · cases og with
      | ok r => exact settle_get_error rest (mapSet rm g.name r) em f m hnd' htail
      | error m' => exact settle_get_error rest rm _ f m hnd' htail

/-- A file on which the environment fails appears in the run's outcome list
paired with the rejection message. -/
theorem runAll_mem_error (e : Encoder) (q : ℚ) :
    ∀ (ctr : Nat) (fs : List JsFile) (f : JsFile) (m : String),
      f ∈ fs → e f q = .fail m → (f, .error m) ∈ (runAll e q ctr fs).1
  | _, [], _, _, hmem, _ => absurd hmem (List.not_mem_nil _)
  | ctr, g :: fs, f, m, hmem, hfail => by
    rcases List.mem_cons.mp hmem with hhead | htail
    · subst hhead
      cases h : e f q with
      | ok b sz => rw [h] at hfail; exact absurd hfail (by simp)
      | fail m' =>
        rw [h] at hfail
        have hm : m' = m := by injection hfail
        subst hm
        simp only [runAll, compressFile, h]
        exact List.mem_cons_self _ _
    · cases h : e g q with
      | ok b sz =>
        simp only [runAll, compressFile, h]
        exact List.mem_cons_of_mem _ (runAll_mem_error e q _ fs f m htail hfail)
      | fail m' =>
        simp only [runAll, compressFile, h]
        exact List.mem_cons_of_mem _ (runAll_mem_error e q _ fs f m htail hfail)

/-- **C3** (amended).  After processing settles, every file of a batch whose
names are pairwise distinct has exactly one outcome: its name is in the
success map or in the error map, never in both and never in neither — and a
sibling's failure never prevents a file from getting its outcome (every file
of the batch is settled, whatever the environment did to the others). -/
theorem processFiles_exactly_one_outcome (e : Encoder) (s : AppState)
    (f : JsFile) (hnd : (s.originalFiles.map (·.name)).Nodup)
    (hf : f ∈ s.originalFiles) :
    (mapGet (processFiles e s).compressedResults f.name).isSome =
      !(mapGet (processFiles e s).errors f.name).isSome := by
  have houts : ((runAll e s.quality s.urlCounter s.originalFiles).1).map
      (·.1.name) = s.originalFiles.map (·.name) := by
    rw [show ((runAll e s.quality s.urlCounter s.originalFiles).1).map (·.1.name) =
      (((runAll e s.quality s.urlCounter s.originalFiles).1).map (·.1)).map (·.name)
      from (List.map_map _ _ _).symm, runAll_map_fst]
  have hnd2 : (((runAll e s.quality s.urlCounter s.originalFiles).1).map
      (·.1.name)).Nodup := houts ▸ hnd
  have hmem : ∃ o, (f, o) ∈ (runAll e s.quality s.urlCounter s.originalFiles).1 := by
    have : f ∈ ((runAll e s.quality s.urlCounter s.originalFiles).1).map (·.1) := by
      rw [runAll_map_fst]; exact hf
    rcases List.mem_map.mp this with ⟨p, hp, hpf⟩
    exact ⟨p.2, by rw [← hpf]; exact hp⟩
  rcases hmem with ⟨o, ho⟩
  exact settle_exactly_one _ [] [] f o hnd2 ho rfl rfl

/-- Witness for the amended C3: a two-file batch with distinct names, one
succeeding and one failing, each gets exactly one outcome. -/
theorem processFiles_exactly_one_outcome_witness :
    (([fileA, fileB].map (JsFile.name)).Nodup ∧
      fileA ∈ [fileA, fileB] ∧
      (mapGet (processFiles mixedEncoder
          { initialState with originalFiles := [fileA, fileB] }).compressedResults
        fileA.name).isSome =
      !(mapGet (processFiles mixedEncoder
          { initialState with originalFiles := [fileA, fileB] }).errors
        fileA.name).isSome) ∧
    (fileB ∈ [fileA, fileB] ∧
      (mapGet (processFiles mixedEncoder
          { initialState with originalFiles := [fileA, fileB] }).compressedResults
        fileB.name).isSome =
      !(mapGet (processFiles mixedEncoder
          { initialState with originalFiles := [fileA, fileB] }).errors
        fileB.name).isSome) :=
  ⟨⟨by decide, by decide,
      processFiles_exactly_one_outcome mixedEncoder
        { initialState with originalFiles := [fileA, fileB] } fileA
        (by decide) (by decide)⟩,
    ⟨by decide,
      processFiles_exactly_one_outcome mixedEncoder
        { initialState with originalFiles := [fileA, fileB] } fileB
        (by decide) (by decide)⟩⟩

/-- **C3** (counterexample).  The claim as stated fails for a batch the File
Filter can produce: two distinct files that share the name `a.png`, where the
first succeeds and the second fails, leave that name in *both* the success
map and the error map. -/
theorem duplicate_name_in_both_maps :
    fileA.name = fileDupA.name ∧ fileA ≠ fileDupA ∧
    (mapGet (step mixedEncoder initialState
        (.select [fileA, fileDupA])).compressedResults fileA.name).isSome = true ∧
    (mapGet (step mixedEncoder initialState
        (.select [fileA, fileDupA])).errors fileA.name).isSome = true := by
  exact ⟨by decide, by decide, by decide, by decide⟩

/-- **C6** (amended).  A failed compression task records, under its file's
name, exactly the rejection's own message — verbatim, even when that message
is empty, because the handler takes the `instanceof Error` branch; the
generic fallback applies only to rejection reasons that are not `Error`
objects and stringify to the empty string, which `compressFile` never
produces. -/
theorem failure_records_own_message (e : Encoder) (s : AppState) (f : JsFile)
    (m : String) (hnd : (s.originalFiles.map (·.name)).Nodup)
    (hf : f ∈ s.originalFiles) (hfail : e f s.quality = .fail m) :
    mapGet (processFiles e s).errors f.name = some m := by
  have houts : ((runAll e s.quality s.urlCounter s.originalFiles).1).map
      (·.1.name) = s.originalFiles.map (·.name) := by
    rw [show ((runAll e s.quality s.urlCounter s.originalFiles).1).map (·.1.name) =
      (((runAll e s.quality s.urlCounter s.originalFiles).1).map (·.1)).map (·.name)
      from (List.map_map _ _ _).symm, runAll_map_fst]
  have hnd2 : (((runAll e s.quality s.urlCounter s.originalFiles).1).map
      (·.1.name)).Nodup := houts ▸ hnd
  have hmem := runAll_mem_error e s.quality s.urlCounter s.originalFiles f m hf hfail
  exact settle_get_error _ [] [] f m hnd2 hmem

/-- Witness for the amended C6: `fileB` fails with the encode-failure
message, which is recorded verbatim. -/
theorem failure_records_own_message_witness :
    (([fileB].map (JsFile.name)).Nodup ∧ fileB ∈ [fileB] ∧
      mixedEncoder fileB
        ({ initialState with originalFiles := [fileB] } : AppState).quality =
        .fail "Не удалось создать blob.") ∧
    mapGet (processFiles mixedEncoder
        { initialState with originalFiles := [fileB] }).errors fileB.name =
      some "Не удалось создать blob." :=
  ⟨⟨by decide, by decide, by decide⟩,
    failure_records_own_message mixedEncoder
      { initialState with originalFiles := [fileB] } fileB
      "Не удалось создать blob." (by decide) (by decide) (by decide)⟩

/-- **C6** (counterexample).  The claim's fallback clause fails: a rejection
that is an `Error` object with an *empty* message is recorded as the empty
message, not as the generic fallback, because the `instanceof Error` branch
returns `reason.message` unconditionally. -/
theorem empty_error_message_no_fallback :
    resolveErrorMessage (.errObj "") = "" ∧
    resolveErrorMessage (.errObj "") ≠ "Не удалось сжать." :=
  ⟨rfl, by decide⟩

/-! ## Determinism of settled sizes (C7) -/

/-- The URL-erased outcome list of a run does not depend on the starting
URL counter: it is a function of the environment, the quality and the files
alone. -/
theorem runAll_erase (e : Encoder) (q : ℚ) :
    ∀ (c₁ c₂ : Nat) (fs : List JsFile),
      ((runAll e q c₁ fs).1).map (fun p => (p.1, eraseUrl p.2)) =
      ((runAll e q c₂ fs).1).map (fun p => (p.1, eraseUrl p.2))
  | _, _, [] => rfl
  | c₁, c₂, f :: fs => by
    cases h : e f q with
    | ok b sz =>
      simp only [runAll, compressFile, h, List.map_cons, eraseUrl]
      exact congrArg _ (runAll_erase e q _ _ fs)
    | fail m =>
      simp only [runAll, compressFile, h, List.map_cons, eraseUrl]
      exact congrArg _ (runAll_erase e q _ _ fs)

/-- Key presence is invariant under the size projection. -/
theorem any_key_projSize (rm : List (String × CompressedResult)) (k : String) :
    (projSize rm).any (fun p => decide (p.1 = k)) =
      rm.any (fun p => decide (p.1 = k)) := by
  induction rm with
  | nil => rfl
  | cons p m ih => simp only [projSize, List.map_cons, List.any_cons] at ih ⊢; rw [ih]

/-- The size projection commutes with `Map.set`. -/
theorem projSize_mapSet (rm : List (String × CompressedResult)) (k : String)
    (v : CompressedResult) :
    projSize (mapSet rm k v) = mapSet (projSize rm) k v.size := by
  unfold mapSet
  rw [any_key_projSize]
  by_cases h : rm.any (fun p => decide (p.1 = k)) = true
  · rw [if_pos h, if_pos h]
    unfold projSize
    rw [List.map_map, List.map_map]
    apply List.map_congr_left
    intro p _
    by_cases hk : p.1 = k <;> simp [hk]
  · rw [if_neg h, if_neg h]
    unfold projSize
    rw [List.map_append]
    rfl

/-- Two outcome lists that agree after URL erasure settle to maps with the
same sizes and the same errors. -/
theorem settle_erase_congr :
    ∀ (outs₁ outs₂ : List (JsFile × Except String CompressedResult))
      (rm₁ rm₂ : List (String × CompressedResult)) (em : List (String × String)),
      outs₁.map (fun p => (p.1, eraseUrl p.2)) =
        outs₂.map (fun p => (p.1, eraseUrl p.2)) →
      projSize rm₁ = projSize rm₂ →
      projSize (settle outs₁ (rm₁, em)).1 = projSize (settle outs₂ (rm₂, em)).1 ∧
      (settle outs₁ (rm₁, em)).2 = (settle outs₂ (rm₂, em)).2
  | [], outs₂, rm₁, rm₂, em, houts, hrm => by
    have h2 : outs₂ = [] := by
      cases outs₂ with
      | nil => rfl
      | cons p rest => exact absurd houts (by simp)
    subst h2
    exact ⟨hrm, rfl⟩
  | (f, o) :: rest₁, outs₂, rm₁, rm₂, em, houts, hrm => by
    cases outs₂ with
    | nil => exact absurd houts (by simp)
    | cons p₂ rest₂ =>
      obtain ⟨g, o'⟩ := p₂
      simp only [List.map_cons, List.cons_eq_cons, Prod.mk.injEq] at houts
      obtain ⟨⟨hfg, ho⟩, hrest⟩ := houts
      subst hfg
      cases o with
      | ok r =>
        cases o' with
        | error m' => exact absurd ho (by simp [eraseUrl])
        | ok r' =>
          have hsz : r.size = r'.size := by
            simp only [eraseUrl, Except.ok.injEq, Prod.mk.injEq] at ho
            exact ho.2
          have hrm' : projSize (mapSet rm₁ f.name r) =
              projSize (mapSet rm₂ f.name r') := by
            rw [projSize_mapSet, projSize_mapSet, hrm, hsz]
          exact settle_erase_congr rest₁ rest₂ _ _ em hrest hrm'
      | error m =>
        cases o' with
        | ok r' => exact absurd ho (by simp [eraseUrl])
        | error m' =>
          have hm : m = m' := by
            simp only [eraseUrl, Except.error.injEq] at ho
            exact ho
          subst hm
          exact settle_erase_congr rest₁ rest₂ rm₁ rm₂ _ hrest hrm

/-- Looking up a size through the projection. -/
theorem mapGet_projSize (rm : List (String × CompressedResult)) (n : String) :
    (mapGet rm n).map (·.size) = mapGet (projSize rm) n := by
  induction rm with
  | nil => rfl
  | cons p m ih =>
    unfold mapGet projSize at ih ⊢
    simp only [List.map_cons, List.find?]
    by_cases hk : p.1 = n
    · simp [hk]
    · simp only [hk, decide_False]
      exact ih

/-- **C7** (confirmed).  Re-running the pipeline on the identical batch and
identical quality in the same environment yields settled outcomes with the
same byte size for every file name (and the same per-file errors), even
though the second run hands out fresh object URLs. -/
theorem rerun_same_sizes (e : Encoder) (s : AppState) (n : String) :
    (mapGet (processFiles e s).compressedResults n).map (·.size) =
      (mapGet (processFiles e (processFiles e s)).compressedResults n).map (·.size) ∧
    (processFiles e s).errors = (processFiles e (processFiles e s)).errors := by
  have hcongr := settle_erase_congr
    (runAll e s.quality s.urlCounter s.originalFiles).1
    (runAll e s.quality (runAll e s.quality s.urlCounter s.originalFiles).2
      s.originalFiles).1
    [] [] []
    (runAll_erase e s.quality s.urlCounter _ s.originalFiles) rfl
  constructor
  · rw [mapGet_projSize, mapGet_projSize]
    exact congrArg (fun rm => mapGet rm n) hcongr.1
  · exact hcongr.2

end CompressPhoto
